import Mathlib

/-!
Shallow embedding of the txt2xlsx conversion pipeline (src/Txt2xlsx.py).
Strings are modelled as Lean `String` (a wrapper around `List Char`),
tables as lists of rows of string cells, numeric values as `ℚ` with
`Option` for the missing/"absent" case, and the fallible pipeline as
`Except`.
-/

/-- Whitespace predicate used by Python's `str.strip()` for ASCII input
(space, tab, newline, carriage return, vertical tab, form feed). -/
def pyIsSpace (c : Char) : Bool :=
  c = ' ' || c = '\t' || c = '\n' || c = '\r' || c = '\x0b' || c = '\x0c'

/-- Strip leading and trailing whitespace from a character list,
modelling Python's `str.strip()`. -/
def pyStripList (cs : List Char) : List Char :=
  ((cs.dropWhile pyIsSpace).reverse.dropWhile pyIsSpace).reverse

/-- Python `s.strip()` on strings. -/
def pyStrip (s : String) : String :=
  ⟨pyStripList s.data⟩

/-- Model of `_normalize_number_str` (src/Txt2xlsx.py lines 99-113):
`None` maps to the empty string; otherwise the value is stripped of
surrounding whitespace, all point characters are removed when the
stripped string has more than one point and at least one comma
(thousands separators), and finally every comma is replaced by a point. -/
def _normalize_number_str (s : Option String) : String :=
  match s with
  | none => ""
  | some str =>
    let t := pyStrip str
    let t1 :=
      if 1 < t.data.count '.' ∧ ',' ∈ t.data then
        (⟨t.data.filter (fun c => !(c = '.'))⟩ : String)
      else t
    ⟨t1.data.map (fun c => if c = ',' then '.' else c)⟩

/-- Normalization rule as worded in the specification (§4.5): if the
string contains more than one literal point character and at least one
comma, strip the points (thousands separators); in all cases replace
any remaining comma with a point.  Surrounding whitespace is removed
first, as everywhere in the pipeline (cells are stripped by the Table
Builder and the normalizer).  Stated over the raw string `s`, to be
compared with the source's `_normalize_number_str`, which tests the
stripped string. -/
def normalizeSpecRule (s : String) : String :=
  let t := pyStrip s
  let t1 :=
    if 1 < s.data.count '.' ∧ ',' ∈ s.data then
      (⟨t.data.filter (fun c => !(c = '.'))⟩ : String)
    else t
  ⟨t1.data.map (fun c => if c = ',' then '.' else c)⟩

/-- All ASCII casings of the literal tokens `nan` and `none`. -/
def nanNoneForms : List String :=
  ["nan", "naN", "nAn", "nAN", "Nan", "NaN", "NAn", "NAN",
   "none", "nonE", "noNe", "noNE", "nOne", "nOnE", "nONe", "nONE",
   "None", "NonE", "NoNe", "NoNE", "NOne", "NOnE", "NONe", "NONE"]

/-- Decimal digit value of a character. -/
def digVal (c : Char) : Nat := c.toNat - '0'.toNat

/-- Consume a maximal run of leading decimal digits, returning the
accumulated value, the number of digits consumed, and the rest. -/
def parseDigitsAux : List Char → Nat → Nat → Nat × Nat × List Char
  | [], acc, cnt => (acc, cnt, [])
  | c :: cs, acc, cnt =>
    if c.isDigit then parseDigitsAux cs (10 * acc + digVal c) (cnt + 1)
    else (acc, cnt, c :: cs)

/-- Parse an unsigned decimal mantissa (`digits`, `digits.digits`,
`digits.`, `.digits`), returning its value as a numerator/denominator
pair `(n, d)` with value `n / d` (where `d` is a power of ten) and the
unconsumed rest; fails when no digit at all is present. -/
def parseMantissa (cs : List Char) : Option ((Nat × Nat) × List Char) :=
  let r := parseDigitsAux cs 0 0
  match r.2.2 with
  | '.' :: r2 =>
    let f := parseDigitsAux r2 0 0
    if r.2.1 = 0 && f.2.1 = 0 then none
    else some ((r.1 * 10 ^ f.2.1 + f.1, 10 ^ f.2.1), f.2.2)
  | _ => if r.2.1 = 0 then none else some ((r.1, 1), r.2.2)

/-- Parse a complete signed decimal numeral with optional exponent from a
character list; the whole list must be consumed.  This models the set of
strings that `pd.to_numeric(..., errors='coerce')` maps to a finite
number: an optional sign, a decimal mantissa, and an optional
`e`/`E`-exponent.  Tokens such as `nan` that pandas coerces to a missing
value are rejected here, matching their treatment as "absent" by every
consumer in the source (`mask = ser_num.notna() & (ser_num != 0)`,
`dropna`). -/
def parseNumList (cs : List Char) : Option ℚ :=
  let sgn : Bool × List Char :=
    match cs with
    | '+' :: r => (false, r)
    | '-' :: r => (true, r)
    | _ => (false, cs)
  match parseMantissa sgn.2 with
  | none => none
  | some ((mn, md), rest) =>
    let inum : Int := if sgn.1 then -(mn : Int) else (mn : Int)
    match rest with
    | [] => some (mkRat inum md)
    | c :: r =>
      if c = 'e' || c = 'E' then
        let es : Bool × List Char :=
          match r with
          | '+' :: rr => (false, rr)
          | '-' :: rr => (true, rr)
          | _ => (false, r)
        let d := parseDigitsAux es.2 0 0
        if d.2.1 = 0 || !d.2.2.isEmpty then none
        else if es.1 then some (mkRat inum (md * 10 ^ d.1))
        else some (mkRat (inum * (10 : Int) ^ d.1) md)
      else none

/-- Numeric parse of a whole string. -/
def parseNumOpt (s : String) : Option ℚ := parseNumList s.data

/-- Numeric view of a single cell: normalization (`_normalize_number_str`)
followed by coercing numeric parse, as in `_to_numeric_series`
(src/Txt2xlsx.py lines 116-128) applied elementwise. -/
def toNumeric (s : String) : Option ℚ :=
  parseNumOpt (_normalize_number_str (some s))

/-- Elementwise numeric view of a column of cells, modelling
`_to_numeric_series`. -/
def _to_numeric_series (cells : List String) : List (Option ℚ) :=
  cells.map toNumeric

/-- One entry of the mask `ser_num.notna() & (ser_num != 0)` used by the
trim functions: the cell parses (after normalization) to a nonzero
number. -/
def qualifies (s : String) : Bool :=
  match toNumeric s with
  | some q => decide (q ≠ 0)
  | none => false

/-- States of the CSV field splitter (Python `csv.reader` default
dialect: quote character `"`, doubled quotes inside a quoted field,
non-strict handling of text after a closing quote). -/
inductive SplitSt where
  | startField
  | inField
  | inQuoted
  | quoteInQuoted
deriving DecidableEq

/-- State machine of `csv.reader` with delimiter `d` over one line,
accumulating the current field in `acc`.  At end of input the pending
field is emitted. -/
def csvAux (d : Char) : SplitSt → List Char → List Char → List (List Char)
  | _, [], acc => [acc]
  | .startField, c :: cs, acc =>
    if c = '"' then csvAux d .inQuoted cs acc
    else if c = d then acc :: csvAux d .startField cs []
    else csvAux d .inField cs (acc ++ [c])
  | .inField, c :: cs, acc =>
    if c = d then acc :: csvAux d .startField cs []
    else csvAux d .inField cs (acc ++ [c])
  | .inQuoted, c :: cs, acc =>
    if c = '"' then csvAux d .quoteInQuoted cs acc
    else csvAux d .inQuoted cs (acc ++ [c])
  | .quoteInQuoted, c :: cs, acc =>
    if c = '"' then csvAux d .inQuoted cs (acc ++ [c])
    else if c = d then acc :: csvAux d .startField cs []
    else csvAux d .inField cs (acc ++ [c])

/-- Quote-aware split of one line under delimiter `d`, modelling
`next(csv.reader([line], delimiter=d))` combined with the source's
fallback `line.split(d)` for the empty line (where `csv.reader` yields
no row and the fallback produces a single empty field). -/
def csvSplit (d : Char) (s : String) : List String :=
  (csvAux d .startField s.data []).map (fun cs => (⟨cs⟩ : String))

/-- Split a line under `d` and strip every resulting field, as done after
both split branches in `find_header_index` and
`build_dataframe_from_lines`. -/
def stripSplit (d : Char) (s : String) : List String :=
  (csvSplit d s).map pyStrip

/-- Index of the first element satisfying `p` (Python `list.index`
restricted to the found case, and the guard `x in list`). -/
def idxOfFirst (p : α → Bool) : List α → Option Nat
  | [] => none
  | x :: xs => if p x then some 0 else (idxOfFirst p xs).map (· + 1)

/-- Candidate delimiters of `find_header_index`, in priority order. -/
def delims : List Char := ['\t', ';', ',']

/-- Inner delimiter loop of `find_header_index`: try each delimiter in
order on one line; on the first delimiter whose stripped fields contain
the literal `"Date"`, return the fields from the first `"Date"` onward,
the winning delimiter, and the position of that `"Date"` field. -/
def tryDelims (ds : List Char) (ln : String) : Option (List String × Char × Nat) :=
  match ds with
  | [] => none
  | d :: rest =>
    let parts := stripSplit d ln
    match idxOfFirst (fun p => p = "Date") parts with
    | some sc => some (parts.drop sc, d, sc)
    | none => tryDelims rest ln

/-- Outer line loop of `find_header_index`, carrying the current line
index. -/
def findHeaderAux (i : Nat) : List String → Option (Nat × List String × Char × Nat)
  | [] => none
  | ln :: rest =>
    match tryDelims delims ln with
    | some (h, d, sc) => some (i, h, d, sc)
    | none => findHeaderAux (i + 1) rest

/-- Model of `find_header_index` (src/Txt2xlsx.py lines 23-43). -/
def find_header_index (lines : List String) : Option (Nat × List String × Char × Nat) :=
  findHeaderAux 0 lines

/-- Build one table row from one data line (`build_dataframe_from_lines`
loop body, src/Txt2xlsx.py lines 55-68): split and strip, slice from
`start_col`, right-pad with empty cells or right-truncate to the header
width. -/
def buildRow (delimiter : Char) (start_col ncols : Nat) (ln : String) : List String :=
  let parts := stripSplit delimiter ln
  let sel := if start_col < parts.length
    then (parts.drop start_col).take ncols
    else List.replicate ncols ""
  sel ++ List.replicate (ncols - sel.length) ""

/-- Rectangular table of string cells with named columns, modelling the
pandas DataFrame produced by the pipeline. -/
structure DF where
  colNames : List String
  rows : List (List String)
deriving DecidableEq

/-- Model of `build_dataframe_from_lines` (src/Txt2xlsx.py lines
46-70). -/
def build_dataframe_from_lines (header : List String) (data_lines : List String)
    (delimiter : Char) (start_col : Nat) : DF :=
  ⟨header, data_lines.map (buildRow delimiter start_col header.length)⟩

/-- Column of a DataFrame selected by label, modelling `df[col]` (first
matching label). -/
def seriesOf (df : DF) (c : String) : List String :=
  match idxOfFirst (fun n => n = c) df.colNames with
  | some j => df.rows.map (fun r => r.getD j "")
  | none => []

/-- Normalized column name used by `merge_date_time_if_present`:
keep alphanumeric characters, lowercased. -/
def normName (s : String) : String :=
  ⟨(s.data.filter Char.isAlphanum).map Char.toLower⟩

/-- Test that `s` begins with `t` (Python `str.startswith`), stated over
the underlying character lists. -/
def strBeginsWith (s t : String) : Bool :=
  t.data.isPrefixOf s.data

/-- First column whose normalized name begins with `"time"`
(`find_time_col` inside `merge_date_time_if_present`). -/
def find_time_col (columns : List String) : Option String :=
  columns.find? (fun c => strBeginsWith (normName c) "time")

/-- Remove every column labelled `name` from the table, modelling
`df.drop(columns=[name])`. -/
def dropColsNamed (df : DF) (name : String) : DF :=
  let keep := (List.range df.colNames.length).filter
    (fun j => !(df.colNames.getD j "" = name))
  ⟨keep.map (fun j => df.colNames.getD j ""),
   df.rows.map (fun r => keep.map (fun j => r.getD j ""))⟩

/-- Model of `merge_date_time_if_present` (src/Txt2xlsx.py lines 73-96):
if a `Date` column exists and some column's normalized name starts with
`"time"` (and that column is a nonempty name different from `Date`),
drop it. -/
def merge_date_time_if_present (df : DF) : DF :=
  if "Date" ∈ df.colNames then
    match find_time_col df.colNames with
    | some t => if t ≠ "" ∧ t ≠ "Date" then dropColsNamed df t else df
    | none => df
  else df

/-- Indices of the rows whose cell in `cells` normalizes to a nonzero
number: the positions where the mask
`ser_num.notna() & (ser_num != 0)` is true. -/
def qualIdxs (cells : List String) : List Nat :=
  (List.range cells.length).filter (fun i => qualifies (cells.getD i ""))

/-- Column label at Python index `-off`, modelling `df.columns[-off]`
(with the source's `try/except IndexError` yielding `none`). -/
def colAtNeg (names : List String) (off : Nat) : Option String :=
  if off = 0 then names.get? 0 else names.get? (names.length - off)

/-- Fallback loop of the trim functions: scan the given column labels in
order (the caller passes `df.columns[::-1]`), skip `Date`, and return
the first and last qualifying row index of the first column that has
one, together with that column's label. -/
def scanCols (df : DF) : List String → Option (Nat × Nat × String)
  | [] => none
  | c :: cs =>
    if c = "Date" then scanCols df cs
    else
      match qualIdxs (seriesOf df c) with
      | [] => scanCols df cs
      | i :: is => some (i, (i :: is).getLastD 0, c)

/-- Model of `find_trim_indices_by_offset` (src/Txt2xlsx.py lines
200-233): pick the column at offset `off` from the right; if it has
qualifying rows return their first and last index, otherwise scan the
other columns right-to-left (skipping `Date`); if the column count is
below `off`, return the fully undefined triple at once. -/
def find_trim_indices_by_offset (df : DF) (off : Nat) :
    Option Nat × Option Nat × Option String :=
  if df.colNames.length < off then (none, none, none)
  else
    match colAtNeg df.colNames off with
    | none => (none, none, none)
    | some col =>
      match qualIdxs (seriesOf df col) with
      | i :: is => (some i, some ((i :: is).getLastD 0), some col)
      | [] =>
        match scanCols df df.colNames.reverse with
        | some (s, e, c) => (some s, some e, some c)
        | none => (none, none, some col)

/-- Helper for stride sampling: `n` counts down the positions left to
skip before the next kept element; after keeping one, `k - 1` positions
are skipped. -/
def sampleAux (k : Nat) : Nat → List α → List α
  | _, [] => []
  | 0, x :: xs => x :: sampleAux k (k - 1) xs
  | n + 1, _ :: xs => sampleAux k n xs

/-- Every `k`-th element of a list starting at offset 0, modelling
Python slicing `l[::k]` for `k ≥ 1` (the sampling step
`truncated.iloc[::k]` in `main`). -/
def sampleEvery (k : Nat) (l : List α) : List α :=
  sampleAux k 0 l

/-- Terminal outcomes of a pipeline run (`main`, src/Txt2xlsx.py lines
419-483); each corresponds to one early `return` with a printed
message. -/
inductive PErr where
  | headerNotFound
  | emptyAfterHeader
  | emptyAfterNormalization
  | noTrimAnchor
  | outputAlreadyExists
deriving DecidableEq

/-- Decidable equality for `Except` results, so that concrete pipeline
outcomes can be checked by evaluation. -/
instance {ε α : Type} [DecidableEq ε] [DecidableEq α] : DecidableEq (Except ε α) := fun a b =>
  match a, b with
  | .error e, .error f =>
    if h : e = f then isTrue (by rw [h])
    else isFalse (by intro hc; cases hc; exact h rfl)
  | .error _, .ok _ => isFalse (by intro hc; cases hc)
  | .ok _, .error _ => isFalse (by intro hc; cases hc)
  | .ok x, .ok y =>
    if h : x = y then isTrue (by rw [h])
    else isFalse (by intro hc; cases hc; exact h rfl)

/-- Last path component, modelling `os.path.basename` with `/` as the
separator. -/
def pyBasename (p : String) : String :=
  ⟨(p.data.reverse.takeWhile (fun c => !(c = '/'))).reverse⟩

/-- Stem of `os.path.splitext`: cut at the last point, except when every
character before it is a point (so names like `.bashrc` keep their
point). -/
def splitExtStem (cs : List Char) : List Char :=
  let i := cs.length - 1 - cs.reverse.findIdx (fun c => c = '.')
  if ('.' ∈ cs) ∧ (cs.take i).any (fun c => !(c = '.')) then cs.take i else cs

/-- Output file name computed by `main`: base name of the input path,
extension stripped, plus `.xlsx`, in the current working directory. -/
def outName (path : String) : String :=
  (⟨splitExtStem (pyBasename path).data⟩ : String) ++ ".xlsx"

/-- Data path of `main` (src/Txt2xlsx.py lines 419-483) from the loaded
lines to the table that would be handed to the spreadsheet writer.
`isHis` reflects the `.his` extension test choosing offset 4 over 2;
each error is one early abort with its printed message. -/
def pipelineData (lines : List String) (isHis : Bool) (k : Nat) :
    Except PErr (List String × List (List String)) :=
  match find_header_index lines with
  | none => .error .headerNotFound
  | some (header_idx, header, delimiter, start_col) =>
    let data_lines := lines.drop (header_idx + 1)
    if data_lines.isEmpty then .error .emptyAfterHeader
    else
      let df := merge_date_time_if_present
        (build_dataframe_from_lines header data_lines delimiter start_col)
      if df.rows.isEmpty ∨ df.colNames.isEmpty then .error .emptyAfterNormalization
      else
        let off := if isHis then 4 else 2
        match find_trim_indices_by_offset df off with
        | (some start_idx, some end_idx, _) =>
          let truncated := (df.rows.drop start_idx).take (end_idx + 1 - start_idx)
          .ok (df.colNames, sampleEvery k truncated)
        | _ => .error .noTrimAnchor

/-- Full run of `main`: after all data processing succeeds, the output
path is checked (`os.path.exists(out_name)`) and, when a file is already
there, the run aborts without writing; otherwise the `.ok` payload is
exactly what gets written. -/
def pipeline (lines : List String) (isHis : Bool) (k : Nat) (outExists : Bool) :
    Except PErr (List String × List (List String)) :=
  match pipelineData lines isHis k with
  | .error e => .error e
  | .ok v => if outExists then .error .outputAlreadyExists else .ok v

/-! ### Sampler lemmas -/

theorem sampleAux_one_zero {α : Type} : ∀ l : List α, sampleAux 1 0 l = l := by
  intro l
  induction l with
  | nil => rfl
  | cons x xs ih => simpa [sampleAux] using ih

theorem sampleEvery_one {α : Type} (l : List α) : sampleEvery 1 l = l :=
  sampleAux_one_zero l

theorem sampleAux_getElem? {α : Type} (k : Nat) (hk : 1 ≤ k) :
    ∀ (l : List α) (n i : Nat), (sampleAux k n l)[i]? = l[n + i * k]? := by
  intro l
  induction l with
  | nil => intro n i; simp [sampleAux]
  | cons x xs ih =>
    intro n i
    cases n with
    | zero =>
      cases i with
      | zero => simp [sampleAux]
      | succ j =>
        have harith : 0 + (j + 1) * k = (k - 1 + j * k) + 1 := by
          rw [Nat.succ_mul]
          omega
        simp only [sampleAux, harith, List.getElem?_cons_succ]
        exact ih (k - 1) j
    | succ m =>
      have harith : m + 1 + i * k = (m + i * k) + 1 := by omega
      simp only [sampleAux, harith, List.getElem?_cons_succ]
      exact ih m i

theorem sampleAux_length {α : Type} (k : Nat) (hk : 1 ≤ k) :
    ∀ (l : List α) (n : Nat), (sampleAux k n l).length = (l.length - n + k - 1) / k := by
  intro l
  induction l with
  | nil =>
    intro n
    simp only [sampleAux, List.length_nil]
    rw [Nat.div_eq_of_lt (by omega)]
  | cons x xs ih =>
    intro n
    cases n with
    | zero =>
      simp only [sampleAux, List.length_cons]
      rw [ih (k - 1)]
      by_cases h : k - 1 ≤ xs.length
      · have h1 : xs.length - (k - 1) + k - 1 = xs.length := by omega
        have h2 : xs.length + 1 - 0 + k - 1 = xs.length + k := by omega
        rw [h1, h2, Nat.add_div_right _ (by omega)]
      · have h1 : xs.length - (k - 1) + k - 1 = k - 1 := by omega
        have h2 : xs.length + 1 - 0 + k - 1 = xs.length + k := by omega
        rw [h1, h2, Nat.add_div_right _ (by omega),
          Nat.div_eq_of_lt (by omega), Nat.div_eq_of_lt (by omega)]
    | succ m =>
      simp only [sampleAux, List.length_cons]
      rw [ih m]
      congr 1
      omega

/-- C7: for every trimmed window and every stride `k ≥ 1`, the Sampler
returns the rows at offsets `0, k, 2k, …` re-indexed from zero: for
`k = 1` the output is the window itself, the output length is
`ceil(n / k)`, and output row `i` is window row `i * k`. -/
theorem sampler_coverage (rows : List (List String)) (k : Nat) (hk : 1 ≤ k) :
    (k = 1 → sampleEvery k rows = rows)
    ∧ (sampleEvery k rows).length = (rows.length + k - 1) / k
    ∧ ∀ i : Nat, (sampleEvery k rows)[i]? = rows[i * k]? := by
  refine ⟨?_, ?_, ?_⟩
  · rintro rfl
    exact sampleEvery_one rows
  · rw [sampleEvery, sampleAux_length k hk rows 0, Nat.sub_zero]
  · intro i
    rw [sampleEvery, sampleAux_getElem? k hk rows 0 i, Nat.zero_add]

/-- C7 witness: the sampler contract evaluated at a three-row window
with stride 2. -/
theorem sampler_coverage_witness :
    (2 = 1 → sampleEvery 2 [["a"], ["b"], ["c"]] = [["a"], ["b"], ["c"]])
    ∧ (sampleEvery 2 [["a"], ["b"], ["c"]]).length = (3 + 2 - 1) / 2
    ∧ ∀ i : Nat, (sampleEvery 2 [["a"], ["b"], ["c"]])[i]? = [["a"], ["b"], ["c"]][i * 2]? :=
  sampler_coverage [["a"], ["b"], ["c"]] 2 (by decide)

/-! ### Stripping lemmas -/

theorem dropWhile_self {α : Type} (p : α → Bool) :
    ∀ l : List α, (l.dropWhile p).dropWhile p = l.dropWhile p := by
  intro l
  induction l with
  | nil => rfl
  | cons x xs ih =>
    by_cases h : p x = true
    · simp [List.dropWhile_cons, h, ih]
    · simp [List.dropWhile_cons, h]

theorem dropWhile_head_false {α : Type} (p : α → Bool) :
    ∀ {l : List α} {y : α} {ys : List α}, l.dropWhile p = y :: ys → p y = false := by
  intro l
  induction l with
  | nil => intro y ys h; simp [List.dropWhile_nil] at h
  | cons x xs ih =>
    intro y ys h
    by_cases hx : p x = true
    · rw [List.dropWhile_cons, if_pos hx] at h
      exact ih h
    · rw [List.dropWhile_cons, if_neg hx] at h
      cases h
      simpa using hx

theorem dropWhile_getLast? {α : Type} (p : α → Bool) :
    ∀ l : List α, l.dropWhile p ≠ [] → (l.dropWhile p).getLast? = l.getLast? := by
  intro l
  induction l with
  | nil => intro h; simp [List.dropWhile_nil] at h
  | cons x xs ih =>
    intro h
    by_cases hx : p x = true
    · rw [List.dropWhile_cons, if_pos hx] at h ⊢
      have hxs : xs ≠ [] := by
        intro he
        rw [he] at h
        simp [List.dropWhile_nil] at h
      rw [ih h]
      cases xs with
      | nil => exact absurd rfl hxs
      | cons y ys => rw [List.getLast?_cons_cons]
    · rw [List.dropWhile_cons, if_neg hx]

theorem dropWhile_eq_self_of_head {α : Type} (p : α → Bool) (l : List α)
    (h : ∀ y, l.head? = some y → p y = false) : l.dropWhile p = l := by
  cases l with
  | nil => rfl
  | cons x xs =>
    rw [List.dropWhile_cons, if_neg]
    simp [h x rfl]

theorem pyStripList_idem (cs : List Char) : pyStripList (pyStripList cs) = pyStripList cs := by
  unfold pyStripList
  generalize hA : cs.dropWhile pyIsSpace = A
  generalize hB : A.reverse.dropWhile pyIsSpace = B
  have step1 : B.reverse.dropWhile pyIsSpace = B.reverse := by
    apply dropWhile_eq_self_of_head
    intro y hy
    rw [List.head?_reverse] at hy
    have hBne : B ≠ [] := by
      intro he
      rw [he] at hy
      simp at hy
    have h1 : B.getLast? = A.reverse.getLast? := by
      rw [← hB]
      exact dropWhile_getLast? pyIsSpace A.reverse (by rw [hB]; exact hBne)
    rw [h1, List.getLast?_reverse] at hy
    cases hAc : A with
    | nil =>
      rw [hAc] at hy
      simp at hy
    | cons a as =>
      rw [hAc] at hy
      simp only [List.head?_cons, Option.some.injEq] at hy
      subst hy
      exact dropWhile_head_false pyIsSpace (hA.trans hAc)
  rw [step1, List.reverse_reverse, ← hB, dropWhile_self]

theorem count_dropWhile {α : Type} [DecidableEq α] (p : α → Bool) (c : α) (hc : p c = false) :
    ∀ l : List α, (l.dropWhile p).count c = l.count c := by
  intro l
  induction l with
  | nil => rfl
  | cons x xs ih =>
    by_cases hx : p x = true
    · have hxc : (x == c) = false := by
        apply beq_eq_false_iff_ne.mpr
        intro he
        rw [he, hc] at hx
        cases hx
      rw [List.dropWhile_cons, if_pos hx, ih, List.count_cons, hxc]
      simp
    · rw [List.dropWhile_cons, if_neg (by simp [hx])]

theorem count_pyStripList (c : Char) (hc : pyIsSpace c = false) (cs : List Char) :
    (pyStripList cs).count c = cs.count c := by
  unfold pyStripList
  rw [List.count_reverse, count_dropWhile pyIsSpace c hc, List.count_reverse,
    count_dropWhile pyIsSpace c hc]

theorem mem_pyStripList_iff (c : Char) (hc : pyIsSpace c = false) (cs : List Char) :
    c ∈ pyStripList cs ↔ c ∈ cs := by
  rw [← List.count_pos_iff, ← List.count_pos_iff, count_pyStripList c hc]

theorem pyStrip_idem (s : String) : pyStrip (pyStrip s) = pyStrip s := by
  unfold pyStrip
  exact congrArg String.mk (pyStripList_idem s.data)

/-! ### Normalizer lemmas -/

theorem normalize_no_comma (s : String) : ',' ∉ (_normalize_number_str (some s)).data := by
  intro hmem
  simp only [_normalize_number_str, List.mem_map] at hmem
  obtain ⟨x, _, hx⟩ := hmem
  by_cases h : x = ','
  · rw [if_pos h] at hx
    cases hx
  · rw [if_neg h] at hx
    exact h hx

theorem map_comma_id (l : List Char) (h : ',' ∉ l) :
    l.map (fun c => if c = ',' then '.' else c) = l := by
  induction l with
  | nil => rfl
  | cons x xs ih =>
    simp only [List.mem_cons, not_or] at h
    rw [List.map_cons, if_neg (fun he => h.1 he.symm), ih h.2]

/-- C8 counterexample: the normalizer is not idempotent on the string
`". a,."`; stripping the points exposes a leading space which only the
second application removes. -/
theorem normalizer_not_idempotent :
    _normalize_number_str (some (_normalize_number_str (some ". a,."))) ≠
      _normalize_number_str (some ". a,.") := by
  decide

/-- C8 (amended): reapplying the normalizer to one of its outputs is the
same as stripping that output of surrounding whitespace; in particular
the normalizer is idempotent exactly on those inputs whose normal form
carries no surrounding whitespace. -/
theorem normalizer_reapply_strips (s : String) :
    _normalize_number_str (some (_normalize_number_str (some s))) =
      pyStrip (_normalize_number_str (some s)) := by
  generalize ht : _normalize_number_str (some s) = t
  have hnc : ',' ∉ t.data := ht ▸ normalize_no_comma s
  have hnc2 : ',' ∉ (pyStrip t).data :=
    fun hm => hnc (((List.dropWhile_sublist pyIsSpace).subset
      (List.mem_reverse.mp ((List.dropWhile_sublist pyIsSpace).subset
        (List.mem_reverse.mp hm)))))
  show (match some t with
    | none => ""
    | some str =>
      let u := pyStrip str
      let u1 :=
        if 1 < u.data.count '.' ∧ ',' ∈ u.data then
          (⟨u.data.filter (fun c => !(c = '.'))⟩ : String)
        else u
      (⟨u1.data.map (fun c => if c = ',' then '.' else c)⟩ : String)) = pyStrip t
  simp only
  rw [if_neg (fun hand => hnc2 hand.2), map_comma_id _ hnc2]

/-- C10: the cell normalizer is total — `None` maps to the empty string
and every other input behaves as if stripped of surrounding whitespace
first, so that a padded numeral such as `" 12,5 "` still parses to
`12.5` (`mkRat 25 2`). -/
theorem normalizer_total_and_strips :
    _normalize_number_str none = ""
    ∧ (∀ s : String, _normalize_number_str (some s) = _normalize_number_str (some (pyStrip s)))
    ∧ parseNumOpt (_normalize_number_str (some " 12,5 ")) = some (mkRat 25 2) := by
  refine ⟨rfl, ?_, by decide⟩
  intro s
  simp only [_normalize_number_str, pyStrip_idem]

/-- C2: the normalizer implements exactly the worded rule — point
characters are stripped precisely when the string has more than one
point and at least one comma, every remaining comma becomes a point,
and the numeric view is the coercing parse of that normal form, with
the empty string and every casing of the literal tokens `nan` and
`none` yielding the absent value. -/
theorem numeric_normalizer_rule :
    (∀ s : String, _normalize_number_str (some s) = normalizeSpecRule s)
    ∧ (∀ s : String, toNumeric s = parseNumOpt (normalizeSpecRule s))
    ∧ toNumeric "" = none
    ∧ (∀ t ∈ nanNoneForms, toNumeric t = none) := by
  have hmain : ∀ s : String, _normalize_number_str (some s) = normalizeSpecRule s := by
    intro s
    have hcount : (pyStrip s).data.count '.' = s.data.count '.' :=
      count_pyStripList '.' (by decide) s.data
    have hmem : ',' ∈ (pyStrip s).data ↔ ',' ∈ s.data :=
      mem_pyStripList_iff ',' (by decide) s.data
    simp only [_normalize_number_str, normalizeSpecRule, hcount, hmem]
  refine ⟨hmain, ?_, by decide, by decide⟩
  intro s
  rw [toNumeric, hmain s]

/-- C2 witness: the normalizer rule applied to the literal token
`"NaN"` yields the absent value. -/
theorem numeric_normalizer_rule_witness : toNumeric "NaN" = none :=
  numeric_normalizer_rule.2.2.2 "NaN" (by decide)

/-- C1: evaluation of Scenario C.  The inputs `"12,5"` and `"abc"`
behave as claimed (`12.5 = mkRat 25 2` and absent), but `"1.234,56"`
keeps its single thousands point (the strip condition demands more
than one point), is normalized to the unparseable `"1.234.56"` and
therefore yields absent instead of the claimed `1234.56` — contradicting
the source's own docstring and comment for `_normalize_number_str`. -/
theorem scenario_c_eval :
    _normalize_number_str (some "1.234,56") = "1.234.56"
    ∧ toNumeric "1.234,56" = none
    ∧ toNumeric "12,5" = some (mkRat 25 2)
    ∧ toNumeric "abc" = none := by
  decide

/-! ### Table Builder lemmas -/

theorem buildRow_length (delimiter : Char) (start_col ncols : Nat) (ln : String) :
    (buildRow delimiter start_col ncols ln).length = ncols := by
  unfold buildRow
  dsimp only
  by_cases h : start_col < (stripSplit delimiter ln).length
  · rw [if_pos h]
    simp only [List.length_append, List.length_take, List.length_replicate]
    omega
  · rw [if_neg h]
    simp only [List.length_append, List.length_replicate]
    omega

theorem buildRow_trimmed (delimiter : Char) (start_col ncols : Nat) (ln : String) :
    ∀ cell ∈ buildRow delimiter start_col ncols ln, pyStrip cell = cell := by
  intro cell hc
  unfold buildRow at hc
  dsimp only at hc
  rw [List.mem_append] at hc
  have hrep : cell ∈ (List.replicate ncols "" : List String)
      ∨ cell ∈ (stripSplit delimiter ln) ∨ cell = "" := by
    rcases hc with hc | hc
    · by_cases h : start_col < (stripSplit delimiter ln).length
      · rw [if_pos h] at hc
        exact Or.inr (Or.inl
          ((List.drop_sublist start_col (stripSplit delimiter ln)).subset
            ((List.take_sublist ncols _).subset hc)))
      · rw [if_neg h] at hc
        exact Or.inl hc
    · exact Or.inr (Or.inr (List.eq_of_mem_replicate hc))
  rcases hrep with hc2 | hc2 | hc2
  · rw [List.eq_of_mem_replicate hc2]
    decide
  · rw [stripSplit, List.mem_map] at hc2
    obtain ⟨x, _, hx⟩ := hc2
    rw [← hx, pyStrip_idem]
  · rw [hc2]
    decide

theorem buildRow_getElem (delimiter : Char) (start_col ncols : Nat) (ln : String)
    (j : Nat) (hj : j < ncols) :
    (buildRow delimiter start_col ncols ln)[j]? =
      if start_col < (stripSplit delimiter ln).length
          ∧ start_col + j < (stripSplit delimiter ln).length
      then (stripSplit delimiter ln)[start_col + j]?
      else some "" := by
  unfold buildRow
  dsimp only
  by_cases h : start_col < (stripSplit delimiter ln).length
  · rw [if_pos h]
    have hsel : ((stripSplit delimiter ln).drop start_col).take ncols
        = ((stripSplit delimiter ln).drop start_col).take ncols := rfl
    by_cases hj2 : start_col + j < (stripSplit delimiter ln).length
    · rw [if_pos ⟨h, hj2⟩]
      have hlt : j < (((stripSplit delimiter ln).drop start_col).take ncols).length := by
        simp only [List.length_take, List.length_drop]
        omega
      rw [List.getElem?_append_left hlt, List.getElem?_take, if_pos hj,
        List.getElem?_drop]
    · rw [if_neg (fun hand => hj2 hand.2)]
      have hge : (((stripSplit delimiter ln).drop start_col).take ncols).length ≤ j := by
        simp only [List.length_take, List.length_drop]
        omega
      rw [List.getElem?_append_right hge, List.getElem?_replicate, if_pos]
      simp only [List.length_take, List.length_drop]
      omega
  · rw [if_neg h, if_neg (fun hand => h hand.1)]
    have hlen : (List.replicate ncols ("" : String)).length = ncols := List.length_replicate ..
    rw [List.getElem?_append_left (by rw [hlen]; exact hj), List.getElem?_replicate, if_pos hj]

/-- C5: the Table Builder emits exactly one row per data line and every
row has exactly the header's width: cell `j` of the row for line `ln`
is the stripped field at offset `start_col + j` when that field exists,
and the empty string otherwise (right-padding/truncation), and every
cell is already stripped of surrounding whitespace. -/
theorem table_builder_shape (header data_lines : List String) (delimiter : Char)
    (start_col : Nat) :
    (build_dataframe_from_lines header data_lines delimiter start_col).rows.length
        = data_lines.length
    ∧ (∀ r ∈ (build_dataframe_from_lines header data_lines delimiter start_col).rows,
        r.length = header.length)
    ∧ (∀ i : Nat, ∀ ln : String, data_lines[i]? = some ln →
        ∃ r, (build_dataframe_from_lines header data_lines delimiter start_col).rows[i]?
              = some r
          ∧ r.length = header.length
          ∧ (∀ cell ∈ r, pyStrip cell = cell)
          ∧ (∀ j : Nat, j < header.length →
              r[j]? = if start_col < (stripSplit delimiter ln).length
                  ∧ start_col + j < (stripSplit delimiter ln).length
                then (stripSplit delimiter ln)[start_col + j]?
                else some "")) := by
  refine ⟨List.length_map _ _, ?_, ?_⟩
  · intro r hr
    rw [build_dataframe_from_lines, List.mem_map] at hr
    obtain ⟨ln, _, hln⟩ := hr
    rw [← hln, buildRow_length]
  · intro i ln hln
    refine ⟨buildRow delimiter start_col header.length ln, ?_, buildRow_length .., ?_, ?_⟩
    · rw [build_dataframe_from_lines, List.getElem?_map, hln]
      rfl
    · exact buildRow_trimmed delimiter start_col header.length ln
    · intro j hj
      exact buildRow_getElem delimiter start_col header.length ln j hj

/-- C5 witness: the builder contract evaluated on a ragged pair of lines
under a three-column header (the first line is short and gets padded,
the second is long and gets truncated). -/
theorem table_builder_shape_witness :
    (build_dataframe_from_lines ["Date", "A", "B"] ["x;1", "y;2;3;4"] ';' 0).rows.length = 2
    ∧ (build_dataframe_from_lines ["Date", "A", "B"] ["x;1", "y;2;3;4"] ';' 0).rows
        = [["x", "1", ""], ["y", "2", "3"]] := by
  have h := table_builder_shape ["Date", "A", "B"] ["x;1", "y;2;3;4"] ';' 0
  exact ⟨h.1, by decide⟩

/-! ### Trim Engine lemmas -/

theorem qualifies_iff (x : String) :
    qualifies x = true ↔ ∃ q, toNumeric x = some q ∧ q ≠ 0 := by
  unfold qualifies
  cases h : toNumeric x with
  | none => simp
  | some q => simp

theorem mem_qualIdxs (cells : List String) (i : Nat) :
    i ∈ qualIdxs cells ↔ i < cells.length ∧ qualifies (cells.getD i "") = true := by
  rw [qualIdxs, List.mem_filter, List.mem_range]

theorem qualIdxs_sorted (cells : List String) : (qualIdxs cells).Pairwise (· < ·) :=
  List.Pairwise.filter _ (List.pairwise_lt_range cells.length)

theorem getLastD_mem_of_ne_nil (l : List Nat) (d : Nat) (h : l ≠ []) :
    l.getLastD d ∈ l := by
  cases l with
  | nil => exact absurd rfl h
  | cons b bs =>
    rw [List.getLastD_cons]
    exact List.getLastD_mem_cons bs b

theorem sorted_le_getLastD : ∀ (l : List Nat) (d : Nat), l.Pairwise (· < ·) →
    ∀ x ∈ l, x ≤ l.getLastD d := by
  intro l
  induction l with
  | nil => intro d _ x hx; cases hx
  | cons a as ih =>
    intro d hp x hx
    rw [List.getLastD_cons]
    rcases List.mem_cons.mp hx with rfl | hx2
    · cases has : as with
      | nil => rw [List.getLastD_nil]
      | cons b bs =>
        have hmem : as.getLastD x ∈ as := by
          rw [has]
          exact getLastD_mem_of_ne_nil (b :: bs) x (by simp)
        rw [← has]
        exact Nat.le_of_lt ((List.pairwise_cons.mp hp).1 _ hmem)
    · exact ih a (List.pairwise_cons.mp hp).2 x hx2

theorem scanCols_eq_some (df : DF) :
    ∀ (cs : List String) (s e : Nat) (c : String),
      scanCols df cs = some (s, e, c) →
      c ≠ "Date"
      ∧ (∃ pre post, cs = pre ++ c :: post
          ∧ ∀ x ∈ pre, x = "Date" ∨ qualIdxs (seriesOf df x) = [])
      ∧ ∃ is, qualIdxs (seriesOf df c) = s :: is ∧ e = (s :: is).getLastD 0 := by
  intro cs
  induction cs with
  | nil => intro s e c h; cases h
  | cons x xs ih =>
    intro s e c h
    rw [scanCols] at h
    by_cases hx : x = "Date"
    · rw [if_pos hx] at h
      obtain ⟨h1, ⟨pre, post, hsplit, hpre⟩, h3⟩ := ih s e c h
      refine ⟨h1, ⟨x :: pre, post, by rw [hsplit, List.cons_append], ?_⟩, h3⟩
      intro y hy
      rcases List.mem_cons.mp hy with rfl | hy2
      · exact Or.inl hx
      · exact hpre y hy2
    · rw [if_neg hx] at h
      cases hq : qualIdxs (seriesOf df x) with
      | nil =>
        rw [hq] at h
        obtain ⟨h1, ⟨pre, post, hsplit, hpre⟩, h3⟩ := ih s e c h
        refine ⟨h1, ⟨x :: pre, post, by rw [hsplit, List.cons_append], ?_⟩, h3⟩
        intro y hy
        rcases List.mem_cons.mp hy with rfl | hy2
        · exact Or.inr hq
        · exact hpre y hy2
      | cons i is =>
        rw [hq] at h
        have hinj := h
        simp only [Option.some.injEq, Prod.mk.injEq] at hinj
        obtain ⟨hs, he, hc⟩ := hinj
        subst hs
        subst he
        subst hc
        exact ⟨hx, ⟨[], xs, rfl, by intro y hy; cases hy⟩, is, hq, rfl⟩

theorem scanCols_eq_none (df : DF) :
    ∀ cs : List String, scanCols df cs = none ↔
      ∀ x ∈ cs, x = "Date" ∨ qualIdxs (seriesOf df x) = [] := by
  intro cs
  induction cs with
  | nil => simp [scanCols]
  | cons x xs ih =>
    rw [scanCols]
    by_cases hx : x = "Date"
    · rw [if_pos hx, ih]
      constructor
      · intro hall y hy
        rcases List.mem_cons.mp hy with rfl | hy2
        · exact Or.inl hx
        · exact hall y hy2
      · intro hall y hy
        exact hall y (List.mem_cons_of_mem x hy)
    · rw [if_neg hx]
      cases hq : qualIdxs (seriesOf df x) with
      | nil =>
        rw [ih]
        constructor
        · intro hall y hy
          rcases List.mem_cons.mp hy with rfl | hy2
          · exact Or.inr hq
          · exact hall y hy2
        · intro hall y hy
          exact hall y (List.mem_cons_of_mem x hy)
      | cons i is =>
        constructor
        · intro hcontra
          cases hcontra
        · intro hall
          rcases hall x (List.mem_cons_self x xs) with h1 | h2
          · exact absurd h1 hx
          · rw [hq] at h2
            cases h2

theorem find_trim_shape (df : DF) (off : Nat) (s e : Nat) (c : String)
    (h : find_trim_indices_by_offset df off = (some s, some e, some c)) :
    ∃ is, qualIdxs (seriesOf df c) = s :: is ∧ e = (s :: is).getLastD 0 := by
  unfold find_trim_indices_by_offset at h
  by_cases h1 : df.colNames.length < off
  · rw [if_pos h1] at h
    simp at h
  · rw [if_neg h1] at h
    cases hcol : colAtNeg df.colNames off with
    | none =>
      rw [hcol] at h
      simp at h
    | some col =>
      rw [hcol] at h
      dsimp only at h
      cases hq : qualIdxs (seriesOf df col) with
      | cons i is =>
        rw [hq] at h
        simp only [Prod.mk.injEq, Option.some.injEq] at h
        obtain ⟨rfl, rfl, rfl⟩ := h
        exact ⟨is, hq, rfl⟩
      | nil =>
        rw [hq] at h
        cases hscan : scanCols df df.colNames.reverse with
        | none =>
          rw [hscan] at h
          simp at h
        | some v =>
          obtain ⟨s2, e2, c2⟩ := v
          rw [hscan] at h
          simp only [Prod.mk.injEq, Option.some.injEq] at h
          obtain ⟨rfl, rfl, rfl⟩ := h
          exact (scanCols_eq_some df df.colNames.reverse _ _ _ hscan).2.2

/-- C4: whenever the Trim Engine reports a defined window
`(start, end, column)`, we have `start ≤ end`, the used column's values
at `start` and `end` normalize to nonzero numbers, no earlier row of
that column qualifies, and no later row (within the table) qualifies. -/
theorem trim_window_sound (df : DF) (off s e : Nat) (c : String)
    (h : find_trim_indices_by_offset df off = (some s, some e, some c)) :
    s ≤ e
    ∧ (∃ q, toNumeric ((seriesOf df c).getD s "") = some q ∧ q ≠ 0)
    ∧ (∃ q, toNumeric ((seriesOf df c).getD e "") = some q ∧ q ≠ 0)
    ∧ (∀ j, j < s → ¬∃ q, toNumeric ((seriesOf df c).getD j "") = some q ∧ q ≠ 0)
    ∧ (∀ j, e < j → j < (seriesOf df c).length →
        ¬∃ q, toNumeric ((seriesOf df c).getD j "") = some q ∧ q ≠ 0) := by
  obtain ⟨is, hq, he⟩ := find_trim_shape df off s e c h
  have hsorted : (s :: is).Pairwise (· < ·) := hq ▸ qualIdxs_sorted (seriesOf df c)
  have hemem : e ∈ s :: is := he ▸ getLastD_mem_of_ne_nil (s :: is) 0 (by simp)
  have hsmem : s ∈ qualIdxs (seriesOf df c) := by rw [hq]; exact List.mem_cons_self s is
  have hemem2 : e ∈ qualIdxs (seriesOf df c) := by rw [hq]; exact hemem
  have hs2 := (mem_qualIdxs _ s).mp hsmem
  have he2 := (mem_qualIdxs _ e).mp hemem2
  refine ⟨?_, (qualifies_iff _).mp hs2.2, (qualifies_iff _).mp he2.2, ?_, ?_⟩
  · rcases List.mem_cons.mp hemem with rfl | hein
    · exact Nat.le_refl _
    · exact Nat.le_of_lt ((List.pairwise_cons.mp hsorted).1 e hein)
  · intro j hj hex
    have hjq : j ∈ qualIdxs (seriesOf df c) :=
      (mem_qualIdxs _ j).mpr ⟨Nat.lt_trans hj hs2.1, (qualifies_iff _).mpr hex⟩
    rw [hq] at hjq
    rcases List.mem_cons.mp hjq with rfl | hjin
    · exact Nat.lt_irrefl _ hj
    · exact Nat.lt_irrefl j (Nat.lt_trans hj ((List.pairwise_cons.mp hsorted).1 j hjin))
  · intro j hj hjlen hex
    have hjq : j ∈ qualIdxs (seriesOf df c) :=
      (mem_qualIdxs _ j).mpr ⟨hjlen, (qualifies_iff _).mpr hex⟩
    have : j ≤ e := by
      rw [he]
      exact sorted_le_getLastD (s :: is) 0 hsorted j (hq ▸ hjq)
    omega

/-- C4 witness: the trim contract evaluated at a three-column table
whose target column (offset 2, column `A`) has its only nonzero value
in row 0. -/
theorem trim_window_sound_witness :
    (0 : Nat) ≤ 0
    ∧ (∃ q, toNumeric ((seriesOf ⟨["Date", "A", "B"], [["x", "1", "2"]]⟩ "A").getD 0 "")
          = some q ∧ q ≠ 0)
    ∧ (∃ q, toNumeric ((seriesOf ⟨["Date", "A", "B"], [["x", "1", "2"]]⟩ "A").getD 0 "")
          = some q ∧ q ≠ 0)
    ∧ (∀ j, j < 0 →
        ¬∃ q, toNumeric ((seriesOf ⟨["Date", "A", "B"], [["x", "1", "2"]]⟩ "A").getD j "")
          = some q ∧ q ≠ 0)
    ∧ (∀ j, 0 < j → j < (seriesOf ⟨["Date", "A", "B"], [["x", "1", "2"]]⟩ "A").length →
        ¬∃ q, toNumeric ((seriesOf ⟨["Date", "A", "B"], [["x", "1", "2"]]⟩ "A").getD j "")
          = some q ∧ q ≠ 0) :=
  trim_window_sound ⟨["Date", "A", "B"], [["x", "1", "2"]]⟩ 2 0 0 "A" (by decide)

/-- C3 counterexample: a one-column table whose only column `A` holds
the qualifying value `"5"`, probed with offset 2.  The column count (1)
is smaller than the offset, column `A` is not the date column and has a
qualifying row, yet the Trim Engine returns the fully undefined triple
instead of the claimed fallback window `(0, 0, "A")` — it fails
outright, performing no fallback scan. -/
theorem trim_fallback_cex :
    find_trim_indices_by_offset ⟨["A"], [["5"]]⟩ 2 = (none, none, none)
    ∧ qualifies ((seriesOf ⟨["A"], [["5"]]⟩ "A").getD 0 "") = true
    ∧ ¬∃ s e c, find_trim_indices_by_offset ⟨["A"], [["5"]]⟩ 2 = (some s, some e, some c) := by
  refine ⟨by decide, by decide, ?_⟩
  rintro ⟨s, e, c, hc⟩
  rw [show find_trim_indices_by_offset ⟨["A"], [["5"]]⟩ 2 = (none, none, none) from by decide]
    at hc
  simp at hc

/-- C3 (amended): when the Table's column count is smaller than the
offset the Trim Engine returns the undefined triple immediately, with
no fallback; the right-to-left fallback scan (skipping the date column)
runs only when the offset is within range but the target column has no
qualifying row, and then it yields the first and last qualifying row of
the first scanned column that has one. -/
theorem trim_offset_out_of_range (df : DF) (off : Nat) :
    (df.colNames.length < off → find_trim_indices_by_offset df off = (none, none, none))
    ∧ (∀ col, ¬df.colNames.length < off → colAtNeg df.colNames off = some col →
        qualIdxs (seriesOf df col) = [] →
        ((∃ c2 ∈ df.colNames, c2 ≠ "Date" ∧ qualIdxs (seriesOf df c2) ≠ []) →
          ∃ s e c, find_trim_indices_by_offset df off = (some s, some e, some c))
        ∧ (∀ s e c, find_trim_indices_by_offset df off = (some s, some e, some c) →
            c ≠ "Date"
            ∧ (∃ pre post, df.colNames.reverse = pre ++ c :: post
                ∧ ∀ x ∈ pre, x = "Date" ∨ qualIdxs (seriesOf df x) = [])
            ∧ ∃ is, qualIdxs (seriesOf df c) = s :: is ∧ e = (s :: is).getLastD 0)) := by
  constructor
  · intro hlt
    unfold find_trim_indices_by_offset
    rw [if_pos hlt]
  · intro col hnl hcol hq
    have hfind : find_trim_indices_by_offset df off =
        match scanCols df df.colNames.reverse with
        | some (s, e, c) => (some s, some e, some c)
        | none => (none, none, some col) := by
      unfold find_trim_indices_by_offset
      rw [if_neg hnl, hcol]
      dsimp only
      rw [hq]
    constructor
    · rintro ⟨c2, hc2mem, hc2date, hc2q⟩
      cases hscan : scanCols df df.colNames.reverse with
      | none =>
        rcases (scanCols_eq_none df df.colNames.reverse).mp hscan c2
          (List.mem_reverse.mpr hc2mem) with h | h
        · exact absurd h hc2date
        · exact absurd h hc2q
      | some v =>
        obtain ⟨s2, e2, c3⟩ := v
        refine ⟨s2, e2, c3, ?_⟩
        rw [hfind, hscan]
    · intro s e c hfc
      rw [hfind] at hfc
      cases hscan : scanCols df df.colNames.reverse with
      | none =>
        rw [hscan] at hfc
        simp at hfc
      | some v =>
        obtain ⟨s2, e2, c3⟩ := v
        rw [hscan] at hfc
        simp only [Prod.mk.injEq, Option.some.injEq] at hfc
        obtain ⟨rfl, rfl, rfl⟩ := hfc
        exact scanCols_eq_some df df.colNames.reverse _ _ _ hscan

/-- C3 witness: the no-fallback branch of the amended claim evaluated at
the one-column table with offset 2. -/
theorem trim_offset_out_of_range_witness :
    find_trim_indices_by_offset ⟨["A"], [["5"]]⟩ 2 = (none, none, none) :=
  (trim_offset_out_of_range ⟨["A"], [["5"]]⟩ 2).1 (by decide)

/-! ### Header Locator lemmas -/

theorem idxOfFirst_eq_none {α : Type} (p : α → Bool) :
    ∀ l : List α, idxOfFirst p l = none ↔ ∀ x ∈ l, p x = false := by
  intro l
  induction l with
  | nil => simp [idxOfFirst]
  | cons x xs ih =>
    rw [idxOfFirst]
    by_cases hx : p x = true
    · rw [if_pos hx]
      simp only [List.mem_cons]
      constructor
      · intro hc
        cases hc
      · intro hall
        rw [hall x (Or.inl rfl)] at hx
        cases hx
    · rw [if_neg hx]
      simp only [List.mem_cons]
      constructor
      · intro hmap y hy
        rcases hy with rfl | hy2
        · simpa using hx
        · cases hidx : idxOfFirst p xs with
          | none => exact (ih.mp hidx) y hy2
          | some m => rw [hidx] at hmap; cases hmap
      · intro hall
        rw [ih.mpr (fun y hy => hall y (Or.inr hy))]
        rfl

theorem idxOfFirst_spec {α : Type} (p : α → Bool) :
    ∀ (l : List α) (n : Nat), idxOfFirst p l = some n →
      (∃ x, l[n]? = some x ∧ p x = true)
      ∧ ∀ m, m < n → ∀ y, l[m]? = some y → p y = false := by
  intro l
  induction l with
  | nil => intro n h; cases h
  | cons x xs ih =>
    intro n h
    rw [idxOfFirst] at h
    by_cases hx : p x = true
    · rw [if_pos hx] at h
      cases h
      exact ⟨⟨x, List.getElem?_cons_zero, hx⟩, fun m hm => absurd hm (Nat.not_lt_zero m)⟩
    · rw [if_neg hx] at h
      cases hidx : idxOfFirst p xs with
      | none => rw [hidx] at h; cases h
      | some m =>
        rw [hidx] at h
        simp at h
        subst h
        obtain ⟨⟨y, hy, hpy⟩, hearlier⟩ := ih m hidx
        refine ⟨⟨y, ?_, hpy⟩, ?_⟩
        · rw [List.getElem?_cons_succ]
          exact hy
        · intro m2 hm2 y2 hy2
          cases m2 with
          | zero =>
            rw [List.getElem?_cons_zero, Option.some.injEq] at hy2
            subst hy2
            simpa using hx
          | succ m3 =>
            rw [List.getElem?_cons_succ] at hy2
            exact hearlier m3 (Nat.lt_of_succ_lt_succ hm2) y2 hy2

theorem not_date_mem_iff (parts : List String) :
    "Date" ∉ parts ↔ ∀ x ∈ parts, (x = "Date" : Bool) = false := by
  constructor
  · intro hn x hx
    by_cases he : x = "Date"
    · exact absurd (he ▸ hx) hn
    · simpa using he
  · intro hall hmem
    have := hall "Date" hmem
    simp at this

theorem tryDelims_eq_none (ln : String) :
    ∀ ds : List Char, tryDelims ds ln = none ↔ ∀ d ∈ ds, "Date" ∉ stripSplit d ln := by
  intro ds
  induction ds with
  | nil => simp [tryDelims]
  | cons d rest ih =>
    rw [tryDelims]
    cases hidx : idxOfFirst (fun p => p = "Date") (stripSplit d ln) with
    | some sc =>
      constructor
      · intro hc
        cases hc
      · intro hall
        have hnone : idxOfFirst (fun p => p = "Date") (stripSplit d ln) = none :=
          (idxOfFirst_eq_none _ _).mpr
            ((not_date_mem_iff _).mp (hall d (List.mem_cons_self d rest)))
        rw [hnone] at hidx
        cases hidx
    | none =>
      rw [ih]
      constructor
      · intro hall d2 hd2
        rcases List.mem_cons.mp hd2 with rfl | hd3
        · exact (not_date_mem_iff _).mpr ((idxOfFirst_eq_none _ _).mp hidx)
        · exact hall d2 hd3
      · intro hall d2 hd2
        exact hall d2 (List.mem_cons_of_mem d hd2)

theorem tryDelims_eq_some (ln : String) :
    ∀ (ds : List Char) (h : List String) (d : Char) (sc : Nat),
      tryDelims ds ln = some (h, d, sc) →
      (∃ pre post, ds = pre ++ d :: post ∧ ∀ d2 ∈ pre, "Date" ∉ stripSplit d2 ln)
      ∧ idxOfFirst (fun p => p = "Date") (stripSplit d ln) = some sc
      ∧ h = (stripSplit d ln).drop sc := by
  intro ds
  induction ds with
  | nil => intro h d sc hc; cases hc
  | cons d0 rest ih =>
    intro h d sc hc
    rw [tryDelims] at hc
    cases hidx : idxOfFirst (fun p => p = "Date") (stripSplit d0 ln) with
    | some sc0 =>
      rw [hidx] at hc
      simp only [Option.some.injEq, Prod.mk.injEq] at hc
      obtain ⟨rfl, rfl, rfl⟩ := hc
      exact ⟨⟨[], rest, rfl, by intro y hy; cases hy⟩, hidx, rfl⟩
    | none =>
      rw [hidx] at hc
      obtain ⟨⟨pre, post, hsplit, hpre⟩, hi, hh⟩ := ih h d sc hc
      refine ⟨⟨d0 :: pre, post, by rw [hsplit, List.cons_append], ?_⟩, hi, hh⟩
      intro d2 hd2
      rcases List.mem_cons.mp hd2 with rfl | hd3
      · exact (not_date_mem_iff _).mpr ((idxOfFirst_eq_none _ _).mp hidx)
      · exact hpre d2 hd3

theorem findHeaderAux_eq_some :
    ∀ (ls : List String) (n i : Nat) (h : List String) (d : Char) (sc : Nat),
      findHeaderAux n ls = some (i, h, d, sc) →
      ∃ j ln, i = n + j ∧ ls[j]? = some ln ∧ tryDelims delims ln = some (h, d, sc)
        ∧ ∀ m, m < j → ∀ ln2, ls[m]? = some ln2 → tryDelims delims ln2 = none := by
  intro ls
  induction ls with
  | nil => intro n i h d sc hc; cases hc
  | cons ln0 rest ih =>
    intro n i h d sc hc
    rw [findHeaderAux] at hc
    cases htry : tryDelims delims ln0 with
    | some v =>
      obtain ⟨h0, d0, sc0⟩ := v
      rw [htry] at hc
      simp only [Option.some.injEq, Prod.mk.injEq] at hc
      obtain ⟨rfl, rfl, rfl, rfl⟩ := hc
      exact ⟨0, ln0, (Nat.add_zero n).symm, List.getElem?_cons_zero, htry,
        fun m hm => absurd hm (Nat.not_lt_zero m)⟩
    | none =>
      rw [htry] at hc
      obtain ⟨j, ln, hi, hget, htd, hearlier⟩ := ih (n + 1) i h d sc hc
      refine ⟨j + 1, ln, by omega, by rw [List.getElem?_cons_succ]; exact hget, htd, ?_⟩
      intro m hm ln2 hln2
      cases m with
      | zero =>
        rw [List.getElem?_cons_zero, Option.some.injEq] at hln2
        subst hln2
        exact htry
      | succ m2 =>
        rw [List.getElem?_cons_succ] at hln2
        exact hearlier m2 (Nat.lt_of_succ_lt_succ hm) ln2 hln2

theorem findHeaderAux_eq_none :
    ∀ (ls : List String) (n : Nat), findHeaderAux n ls = none ↔
      ∀ ln ∈ ls, tryDelims delims ln = none := by
  intro ls
  induction ls with
  | nil => intro n; simp [findHeaderAux]
  | cons ln0 rest ih =>
    intro n
    rw [findHeaderAux]
    cases htry : tryDelims delims ln0 with
    | some v =>
      constructor
      · intro hc
        cases hc
      · intro hall
        rw [hall ln0 (List.mem_cons_self ln0 rest)] at htry
        cases htry
    | none =>
      rw [ih (n + 1)]
      constructor
      · intro hall ln hln
        rcases List.mem_cons.mp hln with rfl | hln2
        · exact htry
        · exact hall ln hln2
      · intro hall ln hln
        exact hall ln (List.mem_cons_of_mem ln0 hln)

/-- C6: the Header Locator returns the first line whose quote-aware
split — under tab, semicolon, comma tried in that priority — contains
the exact field `"Date"`: every earlier line matches no candidate
delimiter, every higher-priority delimiter fails on the found line, and
the result carries the line index, the fields from the first `"Date"`
onward, the winning delimiter, and the sentinel's offset; when no line
matches at all, the pipeline terminates with `HeaderNotFound`. -/
theorem header_locator_contract (lines : List String) (his : Bool) (k : Nat) (ex : Bool) :
    (∀ i h d sc, find_header_index lines = some (i, h, d, sc) →
      ∃ ln, lines[i]? = some ln
        ∧ (∀ j, j < i → ∀ ln2, lines[j]? = some ln2 →
            ∀ d2 ∈ delims, "Date" ∉ stripSplit d2 ln2)
        ∧ (∃ dpre dpost, delims = dpre ++ d :: dpost
            ∧ ∀ d2 ∈ dpre, "Date" ∉ stripSplit d2 ln)
        ∧ (stripSplit d ln)[sc]? = some "Date"
        ∧ (∀ m, m < sc → ∀ y, (stripSplit d ln)[m]? = some y → y ≠ "Date")
        ∧ h = (stripSplit d ln).drop sc)
    ∧ ((∀ ln ∈ lines, ∀ d2 ∈ delims, "Date" ∉ stripSplit d2 ln) →
        find_header_index lines = none
        ∧ pipeline lines his k ex = .error .headerNotFound) := by
  constructor
  · intro i h d sc hfind
    obtain ⟨j, ln, hij, hget, htd, hearlier⟩ :=
      findHeaderAux_eq_some lines 0 i h d sc hfind
    have hij2 : i = j := by omega
    subst hij2
    obtain ⟨hpre, hidx, hdrop⟩ := tryDelims_eq_some ln delims h d sc htd
    obtain ⟨⟨x, hx, hpx⟩, hbefore⟩ := idxOfFirst_spec _ (stripSplit d ln) sc hidx
    have hxdate : x = "Date" := by simpa using hpx
    subst hxdate
    refine ⟨ln, hget, ?_, hpre, hx, ?_, hdrop⟩
    · intro j2 hj2 ln2 hln2 d2 hd2
      exact (tryDelims_eq_none ln2 delims).mp (hearlier j2 hj2 ln2 hln2) d2 hd2
    · intro m hm y hy he
      have := hbefore m hm y hy
      rw [he] at this
      simp at this
  · intro hall
    have hnone : find_header_index lines = none :=
      (findHeaderAux_eq_none lines 0).mpr
        (fun ln hln => (tryDelims_eq_none ln delims).mpr (hall ln hln))
    refine ⟨hnone, ?_⟩
    unfold pipeline pipelineData
    rw [hnone]

/-- C6 witness: a file whose single line matches no delimiter leaves the
locator empty-handed and the pipeline aborts with `HeaderNotFound`. -/
theorem header_locator_contract_witness :
    find_header_index ["a b"] = none
    ∧ pipeline ["a b"] false 1 false = .error .headerNotFound :=
  (header_locator_contract ["a b"] false 1 false).2 (by decide)

/-- C9: when a file already exists at the computed output path
(base name of the input plus `.xlsx`), the pipeline never returns a
table to be written — it aborts with `OutputAlreadyExists` exactly on
the runs that would otherwise succeed — so the existing file is never
touched and no output is produced. -/
theorem no_overwrite_contract (lines : List String) (isHis : Bool) (k : Nat) :
    (∀ out, pipeline lines isHis k true ≠ .ok out)
    ∧ (∀ out, pipeline lines isHis k false = .ok out →
        pipeline lines isHis k true = .error .outputAlreadyExists)
    ∧ outName "run01.txt" = "run01.xlsx"
    ∧ outName "logs/run.2024.his" = "run.2024.xlsx" := by
  refine ⟨?_, ?_, by decide, by decide⟩
  · intro out h
    unfold pipeline at h
    cases hd : pipelineData lines isHis k with
    | error e =>
      rw [hd] at h
      cases h
    | ok v =>
      rw [hd] at h
      simp at h
  · intro out h
    unfold pipeline at h ⊢
    cases hd : pipelineData lines isHis k with
    | error e =>
      rw [hd] at h
      cases h
    | ok v =>
      simp

/-- C9 witness: a run that succeeds on a fresh output path aborts with
`OutputAlreadyExists` when the path is taken. -/
theorem no_overwrite_contract_witness :
    pipeline ["Date\tA\tB", "x\t1\t2"] false 1 true = .error .outputAlreadyExists :=
  (no_overwrite_contract ["Date\tA\tB", "x\t1\t2"] false 1).2.1
    (["Date", "A", "B"], [["x", "1", "2"]]) (by decide)
